import Mathlib

/-!
Shallow embedding of the exchange-rate engine (`src/main.rs`, `src/model.rs`).

Modelling choices:
* `f64` weights are modelled as `Rat` (exact arithmetic, decidable comparisons);
  none of the claims under study hinges on floating-point rounding.
* `HashMap<K, V>` is modelled as an association list `List (K × V)` with
  first-match lookup and replace-or-append insertion; `HashSet<T>` as a
  `List T`.  Iteration over a `HashSet` has an unspecified order in Rust, so
  every function that iterates a set takes the iteration order as an explicit
  `List` argument.
* a Rust `panic!` / `unwrap()` on `None` is modelled by returning `none` from
  an `Option`-valued function.
* `Utc::now()` is modelled as an explicit `now : Nat` argument.
-/

set_option allowUnsafeReducibility true

attribute [semireducible] Rat.mul

namespace TenX

/-- First-match lookup in an association list (models `HashMap::get`). -/
def afind {α β : Type} [DecidableEq α] : List (α × β) → α → Option β
  | [], _ => none
  | (k, v) :: rest, a => if k = a then some v else afind rest a

/-- Replace-or-append insertion in an association list
(models `HashMap::insert` / `entry().and_modify().or_insert()`). -/
def ainsert {α β : Type} [DecidableEq α] : List (α × β) → α → β → List (α × β)
  | [], a, b => [(a, b)]
  | (k, v) :: rest, a, b =>
    if k = a then (a, b) :: rest else (k, v) :: ainsert rest a b

/-- Vertex from `model.rs`: an (exchange, currency) pair, compared by value. -/
structure Vertex where
  exchange : String
  currency : String
deriving DecidableEq, Repr

/-- Graph from `model.rs`: the set of vertices seen so far. -/
structure Graph where
  vertices : List Vertex
deriving DecidableEq, Repr

/-- Graph::add_vertex: insert only when no equal vertex is present. -/
def Graph.add_vertex (g : Graph) (v : Vertex) : Graph :=
  if v ∈ g.vertices then g else ⟨v :: g.vertices⟩

/-- EdgeWeight from `model.rs`: a conversion rate and its last-update time. -/
structure EdgeWeight where
  weight : Rat
  last_updated : Nat
deriving DecidableEq, Repr

/-- GraphResult from `model.rs`: adjacency matrix, best-rate table, next-hop
table, each a two-level map keyed by vertices. -/
structure GraphResult where
  adj_matrix : List (Vertex × List (Vertex × EdgeWeight))
  best_rate : List (Vertex × List (Vertex × Rat))
  next : List (Vertex × List (Vertex × Vertex))
deriving DecidableEq, Repr

/-- GraphResult::new. -/
def GraphResult.new : GraphResult := ⟨[], [], []⟩

/-- Lookup of a two-level map entry, `none` when either level is missing. -/
def find2 {β : Type} (m : List (Vertex × List (Vertex × β))) (a b : Vertex) :
    Option β :=
  match afind m a with
  | none => none
  | some inner => afind inner b

/-- GraphResult::get_edge_weight: the adjacency weight, `0` when the edge (or
the source vertex) is absent. -/
def GraphResult.get_edge_weight (g : GraphResult) (f t : Vertex) : Rat :=
  match afind g.adj_matrix f with
  | some inner =>
    match afind inner t with
    | some e => e.weight
    | none => 0
  | none => 0

/-- Adjacency lookup returning the stored `EdgeWeight` when present. -/
def GraphResult.edgeLookup (g : GraphResult) (f t : Vertex) : Option EdgeWeight :=
  find2 g.adj_matrix f t

/-- Best-rate table lookup returning the stored rate when present. -/
def GraphResult.bestRateLookup (g : GraphResult) (f t : Vertex) : Option Rat :=
  find2 g.best_rate f t

/-- Next-hop table lookup returning the stored vertex when present. -/
def GraphResult.nextLookup (g : GraphResult) (f t : Vertex) : Option Vertex :=
  find2 g.next f t

/-- GraphResult::add_best_rate: overwrite-or-insert `best_rate[f][t] = w`. -/
def add_best_rate (br : List (Vertex × List (Vertex × Rat)))
    (f t : Vertex) (w : Rat) : List (Vertex × List (Vertex × Rat)) :=
  match afind br f with
  | some inner => ainsert br f (ainsert inner t w)
  | none => br ++ [(f, [(t, w)])]

/-- GraphResult::add_next_vertex: insert `next[f][t] = t` only when the entry
is absent (an existing entry is kept unchanged). -/
def add_next_vertex (nx : List (Vertex × List (Vertex × Vertex)))
    (f t : Vertex) : List (Vertex × List (Vertex × Vertex)) :=
  match afind nx f with
  | some inner =>
    match afind inner t with
    | some _ => nx
    | none => ainsert nx f (ainsert inner t t)
  | none => nx ++ [(f, [(t, t)])]

/-- GraphResult::update_next_vertex: set `next[i][j]` to the value currently
stored at `next[i][k]`; the two `unwrap()` calls become `none` (panic) when
`next[i]` or `next[i][k]` is missing. -/
def GraphResult.update_next_vertex (g : GraphResult) (i j k : Vertex) :
    Option GraphResult :=
  match afind g.next i with
  | none => none
  | some inner =>
    match afind inner k with
    | none => none
    | some ik_next => some { g with next := ainsert g.next i (ainsert inner j ik_next) }

/-- GraphResult::get_best_rate: the two `unwrap()` calls become `none`
(panic) when the pair has no best-rate entry. -/
def GraphResult.get_best_rate (g : GraphResult) (f t : Vertex) : Option Rat :=
  match afind g.best_rate f with
  | none => none
  | some inner => afind inner t

/-- GraphResult::add_edge_weight: create the edge when absent; overwrite only
when the incoming timestamp is strictly greater than the stored one. -/
def GraphResult.add_edge_weight (g : GraphResult) (f t : Vertex)
    (w : Rat) (datetime : Nat) : GraphResult :=
  match afind g.adj_matrix f with
  | some inner =>
    match afind inner t with
    | some e =>
      if datetime > e.last_updated then
        { g with adj_matrix := ainsert g.adj_matrix f (ainsert inner t ⟨w, datetime⟩) }
      else g
    | none =>
      { g with adj_matrix := ainsert g.adj_matrix f (ainsert inner t ⟨w, datetime⟩) }
  | none => { g with adj_matrix := g.adj_matrix ++ [(f, [(t, ⟨w, datetime⟩)])] }

/-- One direction of the synthetic-link step: `entry(b).or_insert(1.0, now)`
inside `adj_matrix[a]`, a no-op when `a` has no row (the source's `None => ()`
branch) or the entry already exists. -/
def orInsertEdge (g : GraphResult) (a b : Vertex) (now : Nat) : GraphResult :=
  match afind g.adj_matrix a with
  | some inner =>
    match afind inner b with
    | some _ => g
    | none => { g with adj_matrix := ainsert g.adj_matrix a (ainsert inner b ⟨1, now⟩) }
  | none => g

/-- GraphResult::add_edge_weight_for_currency: for every vertex `u` of the
same currency as `v` (iteration order `vs`), insert weight-1 edges `v→u` and
`u→v` when absent, skipping `u = v`. -/
def GraphResult.add_edge_weight_for_currency (g : GraphResult) (v : Vertex)
    (vs : List Vertex) (now : Nat) : GraphResult :=
  (vs.filter (fun u => u.currency = v.currency)).foldl
    (fun acc u =>
      if u = v then acc else orInsertEdge (orInsertEdge acc v u now) u v now) g

/-- Body of the initialization loop of GraphResult::find_best_rates for one
adjacency edge `(i, q.1)` with weight `q.2.weight`: overwrite the best rate,
insert the next hop when absent. -/
def initInnerStep (i : Vertex) (acc : GraphResult) (q : Vertex × EdgeWeight) :
    GraphResult :=
  { acc with
    best_rate := add_best_rate acc.best_rate i q.1 q.2.weight,
    next := add_next_vertex acc.next i q.1 }

/-- Initialization loop body over one adjacency row. -/
def initOuterStep (acc : GraphResult) (p : Vertex × List (Vertex × EdgeWeight)) :
    GraphResult :=
  p.2.foldl (initInnerStep p.1) acc

/-- Initialization loop of GraphResult::find_best_rates: for every adjacency
edge `(i, j, e)`, overwrite `best_rate[i][j] = e.weight` and insert
`next[i][j] = j` when absent. -/
def initBestRates (g : GraphResult) : GraphResult :=
  g.adj_matrix.foldl initOuterStep g

/-- One relaxation step of GraphResult::find_best_rates for the triple
`(i, j, k)`: all three compared weights are raw adjacency weights
(`get_edge_weight`); on `ij < ik * kj` the best rate is overwritten and the
next-hop redirected via `update_next_vertex`. -/
def relaxStep (g : GraphResult) (i j k : Vertex) : Option GraphResult :=
  if i ≠ j ∧ i ≠ k ∧ k ≠ j then
    if g.get_edge_weight i j < g.get_edge_weight i k * g.get_edge_weight k j then
      GraphResult.update_next_vertex
        { g with
          best_rate := add_best_rate g.best_rate i j
            (g.get_edge_weight i k * g.get_edge_weight k j) } i j k
    else some g
  else some g

/-- Triple relaxation loop of GraphResult::find_best_rates over the vertex
iteration order `vs`. -/
def relax (g : GraphResult) (vs : List Vertex) : Option GraphResult :=
  vs.foldlM
    (fun gi i =>
      vs.foldlM
        (fun gj j => vs.foldlM (fun gk k => relaxStep gk i j k) gj)
        gi)
    g

/-- GraphResult::find_best_rates: initialization then triple relaxation. -/
def find_best_rates (g : GraphResult) (vs : List Vertex) : Option GraphResult :=
  relax (initBestRates g) vs

/-- Relaxation step as the spec words it, for comparison with `relaxStep`:
the spec takes `ij` from the best-rate table (`best_rate[i][j]`, 0 if absent),
while `ik` and `kj` stay raw adjacency weights. -/
def relaxStepSpec (g : GraphResult) (i j k : Vertex) : Option GraphResult :=
  if i ≠ j ∧ i ≠ k ∧ k ≠ j then
    if (g.bestRateLookup i j).getD 0 <
        g.get_edge_weight i k * g.get_edge_weight k j then
      GraphResult.update_next_vertex
        { g with
          best_rate := add_best_rate g.best_rate i j
            (g.get_edge_weight i k * g.get_edge_weight k j) } i j k
    else some g
  else some g

/-- Triple relaxation loop built on `relaxStepSpec` (the spec's wording). -/
def relaxSpec (g : GraphResult) (vs : List Vertex) : Option GraphResult :=
  vs.foldlM
    (fun gi i =>
      vs.foldlM
        (fun gj j => vs.foldlM (fun gk k => relaxStepSpec gk i j k) gj)
        gi)
    g

/-- Best-rate recompute as the spec words it, for comparison with
`find_best_rates`. -/
def find_best_rates_spec (g : GraphResult) (vs : List Vertex) : Option GraphResult :=
  relaxSpec (initBestRates g) vs

/-- Loop of GraphResult::best_rate_path: repeatedly follow `next[cur][t]`,
with explicit fuel; `none` models both the `unwrap()` panic on a missing next
entry and fuel exhaustion (a non-terminating source loop). -/
def path_from (g : GraphResult) : Nat → Vertex → Vertex → Option (List Vertex)
  | 0, _, _ => none
  | Nat.succ fuel, cur, t =>
    if cur = t then some [cur]
    else
      match g.nextLookup cur t with
      | none => none
      | some nxt =>
        match path_from g fuel nxt t with
        | none => none
        | some p => some (cur :: p)

/-- GraphResult::best_rate_path: `none` when the pair has no next entry,
otherwise the hop-by-hop reconstruction. -/
def GraphResult.best_rate_path (g : GraphResult) (f t : Vertex) (fuel : Nat) :
    Option (List Vertex) :=
  match g.nextLookup f t with
  | none => none
  | some _ => path_from g fuel f t

/-- Product of the adjacency weights along consecutive vertices of a path. -/
def pathProduct (g : GraphResult) : List Vertex → Rat
  | [] => 1
  | [_] => 1
  | a :: b :: rest => g.get_edge_weight a b * pathProduct g (b :: rest)

/-- PriceUpdate from `model.rs` (quote event). -/
structure PriceUpdate where
  datetime : Nat
  exchange : String
  source_currency : String
  dest_currency : String
  forward_rate : Rat
  backward_rate : Rat
deriving DecidableEq, Repr

/-- ExchangeRateRequest from `model.rs` (query event). -/
structure ExchangeRateRequest where
  source_exchange : String
  source_currency : String
  dest_exchange : String
  dest_currency : String
deriving DecidableEq, Repr

/-- InputType from `model.rs`: classification of an input line. -/
inductive InputType where
  | PriceUpdateT : PriceUpdate → InputType
  | ExchangeRateRequestT : ExchangeRateRequest → InputType
  | Invalid : String → InputType
deriving DecidableEq, Repr

/-- Modelled from the spec: `constants.rs` is referenced by `main.rs` but not
under `src/`; the spec fixes quote lines at 6 tokens. -/
def NUM_TOKEN_PRICE_UPDATE : Nat := 6

/-- Modelled from the spec: `constants.rs` is referenced by `main.rs` but not
under `src/`; the spec fixes query lines at 5 tokens. -/
def NUM_TOKEN_EXCHANGE_RATE_REQUEST : Nat := 5

/-- parse_input from `main.rs`, over an already-tokenized line.  Timestamp and
number parsing are external collaborators (chrono / `str::parse`), passed in
as oracles `pd` (date) and `pn` (number). -/
def parse_input (pd : String → Option Nat) (pn : String → Option Rat)
    (tokens : List String) : InputType :=
  if tokens.length = NUM_TOKEN_PRICE_UPDATE then
    match pd (tokens.getD 0 "") with
    | none => InputType.Invalid ("Invalid date")
    | some datetime =>
      match pn (tokens.getD 4 "") with
      | none => InputType.Invalid ("Invalid forward ratio")
      | some forward_rate =>
        match pn (tokens.getD 5 "") with
        | none => InputType.Invalid ("Invalid backward ratio")
        | some backward_rate =>
          let both := forward_rate * backward_rate
          if both ≤ 0 ∨ both > 1 then
            InputType.Invalid ("Resultant ratios is invalid")
          else
            InputType.PriceUpdateT
              ⟨datetime, tokens.getD 1 "", tokens.getD 2 "", tokens.getD 3 "",
               forward_rate, backward_rate⟩
  else if tokens.length = NUM_TOKEN_EXCHANGE_RATE_REQUEST then
    InputType.ExchangeRateRequestT
      ⟨tokens.getD 1 "", tokens.getD 2 "", tokens.getD 3 "", tokens.getD 4 ""⟩
  else
    InputType.Invalid ("Input is neither a price update nor exchange rate request")

/-- handle_price_update from `main.rs`: add both directed edges, both
vertices, then the synthetic same-currency links (with `now` for their
timestamps). -/
def handle_price_update (g : Graph) (gr : GraphResult) (pu : PriceUpdate)
    (now : Nat) : Graph × GraphResult :=
  let from_vertex : Vertex := ⟨pu.exchange, pu.source_currency⟩
  let to_vertex : Vertex := ⟨pu.exchange, pu.dest_currency⟩
  let gr1 := gr.add_edge_weight from_vertex to_vertex pu.forward_rate pu.datetime
  let gr2 := gr1.add_edge_weight to_vertex from_vertex pu.backward_rate pu.datetime
  let g1 := g.add_vertex from_vertex
  let g2 := g1.add_vertex to_vertex
  let gr3 := gr2.add_edge_weight_for_currency from_vertex g2.vertices now
  let gr4 := gr3.add_edge_weight_for_currency to_vertex g2.vertices now
  (g2, gr4)

/-- handle_exchange_rate_request from `main.rs`: recompute the tables, then
read the best rate (panicking — `none` — when the pair has no entry) and the
path.  The printed report is modelled as the returned rate and path. -/
def handle_exchange_rate_request (g : Graph) (gr : GraphResult)
    (req : ExchangeRateRequest) (fuel : Nat) :
    Option (GraphResult × Rat × Option (List Vertex)) :=
  match find_best_rates gr g.vertices with
  | none => none
  | some gr' =>
    let fv : Vertex := ⟨req.source_exchange, req.source_currency⟩
    let tv : Vertex := ⟨req.dest_exchange, req.dest_currency⟩
    match gr'.get_best_rate fv tv with
    | none => none
    | some r => some (gr', r, gr'.best_rate_path fv tv fuel)

/-- One iteration of the event loop in `main.rs`: dispatch a tokenized line;
an invalid line is skipped (`continue`), leaving the state untouched. -/
def processLine (pd : String → Option Nat) (pn : String → Option Rat)
    (now fuel : Nat) (st : Graph × GraphResult) (tokens : List String) :
    Option (Graph × GraphResult) :=
  match parse_input pd pn tokens with
  | InputType.PriceUpdateT pu => some (handle_price_update st.1 st.2 pu now)
  | InputType.ExchangeRateRequestT req =>
    match handle_exchange_rate_request st.1 st.2 req fuel with
    | none => none
    | some (gr', _, _) => some (st.1, gr')
  | InputType.Invalid _ => some st

/-- Well-formed two-level map: outer keys distinct and every inner key list
distinct.  Every state reachable through the `GraphResult` operations from
`GraphResult.new` satisfies this (the operations only use replace-or-append
insertion). -/
def keysNodup {β : Type} (m : List (Vertex × β)) : Prop :=
  (m.map Prod.fst).Nodup

/-- Well-formedness of an adjacency matrix: distinct keys at both levels. -/
def WFadj (g : GraphResult) : Prop :=
  keysNodup g.adj_matrix ∧ ∀ p ∈ g.adj_matrix, keysNodup p.2

/-- Positivity of every weight stored in the adjacency matrix. -/
def AllPos (m : List (Vertex × List (Vertex × EdgeWeight))) : Prop :=
  ∀ p ∈ m, ∀ q ∈ p.2, 0 < q.2.weight

instance (g : GraphResult) : Decidable (WFadj g) := by
  unfold WFadj keysNodup; infer_instance

instance (m : List (Vertex × List (Vertex × EdgeWeight))) : Decidable (AllPos m) := by
  unfold AllPos; infer_instance

/-! Concrete instances used by counterexamples and witnesses. -/

/-- Vertex (E, A) of the relaxation scenario. -/
def w1A : Vertex := ⟨"E", "A"⟩

/-- Vertex (E, B) of the relaxation scenario. -/
def w1B : Vertex := ⟨"E", "B"⟩

/-- Vertex (E, K1) of the relaxation scenario. -/
def w1K1 : Vertex := ⟨"E", "K1"⟩

/-- Vertex (E, K2) of the relaxation scenario. -/
def w1K2 : Vertex := ⟨"E", "K2"⟩

/-- Graph with two two-hop routes A→K1→B (product 5) and A→K2→B (product 3)
and no direct A→B edge. -/
def c1g : GraphResult :=
  ((((GraphResult.new.add_edge_weight w1A w1K1 5 1).add_edge_weight
      w1K1 w1B 1 1).add_edge_weight w1A w1K2 3 1).add_edge_weight w1K2 w1B 1 1)

/-- Vertex iteration order of the relaxation scenario. -/
def c1vs : List Vertex := [w1A, w1B, w1K1, w1K2]

/-- Vertex (E1, A) of the staleness scenario. -/
def w3a : Vertex := ⟨"E1", "A"⟩

/-- Vertex (E1, B) of the staleness scenario. -/
def w3b : Vertex := ⟨"E1", "B"⟩

/-- Vertex (E1, C) of the staleness scenario. -/
def w3c : Vertex := ⟨"E1", "C"⟩

/-- Initial graph of the staleness scenario: a→c=2, c→b=2, a→b=1. -/
def c3s1 : GraphResult :=
  (((GraphResult.new.add_edge_weight w3a w3c 2 1).add_edge_weight
      w3c w3b 2 1).add_edge_weight w3a w3b 1 1)

/-- Vertex iteration order of the staleness scenario. -/
def c3vs : List Vertex := [w3a, w3b, w3c]

/-- State after the first recompute of the staleness scenario. -/
def c3s2 : GraphResult := (find_best_rates c3s1 c3vs).getD GraphResult.new

/-- State after the first recompute followed by the edge update a→b=100. -/
def c3s3 : GraphResult := c3s2.add_edge_weight w3a w3b 100 2

/-- State with the same adjacency as `c3s3` but no recompute in between. -/
def c3fresh : GraphResult := c3s1.add_edge_weight w3a w3b 100 2

/-- Vertex (E, a) of the path-mismatch scenario. -/
def w4a : Vertex := ⟨"E", "a"⟩

/-- Vertex (E, k) of the path-mismatch scenario. -/
def w4k : Vertex := ⟨"E", "k"⟩

/-- Vertex (E, b) of the path-mismatch scenario. -/
def w4b : Vertex := ⟨"E", "b"⟩

/-- Vertex (E, x) of the path-mismatch scenario. -/
def w4x : Vertex := ⟨"E", "x"⟩

/-- Graph of the path-mismatch scenario: a→k=4, k→b=1, a→x=1, x→k=5. -/
def c4g : GraphResult :=
  ((((GraphResult.new.add_edge_weight w4a w4k 4 1).add_edge_weight
      w4k w4b 1 1).add_edge_weight w4a w4x 1 1).add_edge_weight w4x w4k 5 1)

/-- Vertex iteration order of the path-mismatch scenario. -/
def c4vs : List Vertex := [w4a, w4k, w4b, w4x]

/-- Recompute result of the path-mismatch scenario. -/
def c4r : GraphResult := (find_best_rates c4g c4vs).getD GraphResult.new

/-! Lemmas about association-list lookup and insertion. -/

theorem afind_ainsert_self {α β : Type} [DecidableEq α]
    (l : List (α × β)) (a : α) (b : β) : afind (ainsert l a b) a = some b := by
  induction l with
  | nil => simp [ainsert, afind]
  | cons p rest ih =>
    obtain ⟨k, v⟩ := p
    by_cases h : k = a
    · subst h; simp [ainsert, afind]
    · simp only [ainsert, if_neg h, afind]
      exact ih

theorem afind_ainsert_ne {α β : Type} [DecidableEq α]
    (l : List (α × β)) (a : α) (b : β) (x : α) (hx : x ≠ a) :
    afind (ainsert l a b) x = afind l x := by
  induction l with
  | nil => simp [ainsert, afind, Ne.symm hx]
  | cons p rest ih =>
    obtain ⟨k, v⟩ := p
    by_cases h : k = a
    · subst h; simp [ainsert, afind, Ne.symm hx]
    · simp only [ainsert, if_neg h, afind, ih]

theorem afind_append_some {α β : Type} [DecidableEq α]
    {l1 l2 : List (α × β)} {a : α} {b : β} (h : afind l1 a = some b) :
    afind (l1 ++ l2) a = some b := by
  induction l1 with
  | nil => simp [afind] at h
  | cons p rest ih =>
    obtain ⟨k, v⟩ := p
    by_cases hk : k = a
    · simp only [afind, if_pos hk] at h
      simp only [List.cons_append, afind, if_pos hk, h]
    · simp only [afind, if_neg hk] at h
      simp only [List.cons_append, afind, if_neg hk]
      exact ih h

theorem afind_append_none {α β : Type} [DecidableEq α]
    {l1 l2 : List (α × β)} {a : α} (h : afind l1 a = none) :
    afind (l1 ++ l2) a = afind l2 a := by
  induction l1 with
  | nil => simp
  | cons p rest ih =>
    obtain ⟨k, v⟩ := p
    by_cases hk : k = a
    · simp only [afind, if_pos hk] at h
      simp at h
    · simp only [afind, if_neg hk] at h
      simp only [List.cons_append, afind, if_neg hk]
      exact ih h

theorem afind_append_singleton_ne {α β : Type} [DecidableEq α]
    (l : List (α × β)) (f : α) (z : β) (x : α) (hx : x ≠ f) :
    afind (l ++ [(f, z)]) x = afind l x := by
  cases h : afind l x
  · rw [afind_append_none h]; simp [afind, Ne.symm hx]
  · rw [afind_append_some h]

theorem afind_mem {α β : Type} [DecidableEq α]
    {l : List (α × β)} {a : α} {b : β} (h : afind l a = some b) : (a, b) ∈ l := by
  induction l with
  | nil => simp [afind] at h
  | cons p rest ih =>
    obtain ⟨k, v⟩ := p
    by_cases hk : k = a
    · subst hk
      have hv : v = b := by simpa [afind] using h
      subst hv
      exact List.mem_cons_self _ _
    · simp only [afind, if_neg hk] at h
      exact List.mem_cons_of_mem _ (ih h)

theorem find2_of_outer_none {β : Type} {m : List (Vertex × List (Vertex × β))}
    {a : Vertex} (b : Vertex) (h : afind m a = none) : find2 m a b = none := by
  simp [find2, h]

theorem find2_of_outer_some {β : Type} {m : List (Vertex × List (Vertex × β))}
    {a : Vertex} {inner : List (Vertex × β)} (b : Vertex)
    (h : afind m a = some inner) : find2 m a b = afind inner b := by
  simp [find2, h]

/-! Lemmas about the individual GraphResult operations. -/

theorem get_edge_weight_of_some {g : GraphResult} {x y : Vertex} {e : EdgeWeight}
    (h : g.edgeLookup x y = some e) : g.get_edge_weight x y = e.weight := by
  unfold GraphResult.edgeLookup at h
  cases h1 : afind g.adj_matrix x
  · rw [find2_of_outer_none y h1] at h
    exact absurd h (by simp)
  · rename_i inner
    rw [find2_of_outer_some y h1] at h
    simp only [GraphResult.get_edge_weight, h1, h]

theorem get_edge_weight_of_none {g : GraphResult} {x y : Vertex}
    (h : g.edgeLookup x y = none) : g.get_edge_weight x y = 0 := by
  unfold GraphResult.edgeLookup at h
  cases h1 : afind g.adj_matrix x
  · simp only [GraphResult.get_edge_weight, h1]
  · rename_i inner
    rw [find2_of_outer_some y h1] at h
    simp only [GraphResult.get_edge_weight, h1, h]

theorem get_edge_weight_congr {g1 g2 : GraphResult} (x y : Vertex)
    (h : g1.adj_matrix = g2.adj_matrix) :
    g1.get_edge_weight x y = g2.get_edge_weight x y := by
  unfold GraphResult.get_edge_weight; rw [h]

theorem edgeLookup_congr {g1 g2 : GraphResult} (x y : Vertex)
    (h : g1.adj_matrix = g2.adj_matrix) : g1.edgeLookup x y = g2.edgeLookup x y := by
  unfold GraphResult.edgeLookup; rw [h]

theorem find2_add_best_rate_self (br : List (Vertex × List (Vertex × Rat)))
    (f t : Vertex) (w : Rat) : find2 (add_best_rate br f t w) f t = some w := by
  cases h : afind br f
  · simp only [add_best_rate, h, find2]
    rw [afind_append_none h]
    simp [afind]
  · rename_i inner
    simp only [add_best_rate, h]
    rw [find2_of_outer_some t (afind_ainsert_self br f (ainsert inner t w))]
    exact afind_ainsert_self inner t w

theorem find2_add_best_rate_ne (br : List (Vertex × List (Vertex × Rat)))
    (f t : Vertex) (w : Rat) (x y : Vertex) (hne : ¬(x = f ∧ y = t)) :
    find2 (add_best_rate br f t w) x y = find2 br x y := by
  by_cases hx : x = f
  · subst hx
    have hy : y ≠ t := fun h => hne ⟨rfl, h⟩
    cases h : afind br x
    · simp only [add_best_rate, h, find2]
      rw [afind_append_none h]
      simp [afind, Ne.symm hy]
    · rename_i inner
      simp only [add_best_rate, h]
      rw [find2_of_outer_some y (afind_ainsert_self br x (ainsert inner t w)),
        afind_ainsert_ne _ _ _ _ hy, find2_of_outer_some y h]
  · cases h : afind br f
    · simp only [add_best_rate, h, find2]
      rw [afind_append_singleton_ne _ _ _ _ hx]
    · rename_i inner
      simp only [add_best_rate, h, find2]
      rw [afind_ainsert_ne _ _ _ _ hx]

theorem find2_add_next_pres (nx : List (Vertex × List (Vertex × Vertex)))
    (f t x y v : Vertex) (h : find2 nx x y = some v) :
    find2 (add_next_vertex nx f t) x y = some v := by
  cases h1 : afind nx f
  · have hx : x ≠ f := by
      intro he; subst he
      rw [find2_of_outer_none y h1] at h
      exact absurd h (by simp)
    simp only [add_next_vertex, h1, find2]
    rw [afind_append_singleton_ne _ _ _ _ hx]
    rw [find2] at h
    exact h
  · rename_i inner
    cases h2 : afind inner t
    · by_cases hx : x = f
      · subst hx
        rw [find2_of_outer_some y h1] at h
        have hy : y ≠ t := by
          intro he; subst he; rw [h2] at h; exact absurd h (by simp)
        simp only [add_next_vertex, h1, h2]
        rw [find2_of_outer_some y (afind_ainsert_self nx x (ainsert inner t t)),
          afind_ainsert_ne _ _ _ _ hy]
        exact h
      · simp only [add_next_vertex, h1, h2, find2]
        rw [afind_ainsert_ne _ _ _ _ hx]
        rw [find2] at h
        exact h
    · rename_i u
      simp only [add_next_vertex, h1, h2]
      exact h

theorem find2_add_next_self_isSome (nx : List (Vertex × List (Vertex × Vertex)))
    (f t : Vertex) : (find2 (add_next_vertex nx f t) f t).isSome := by
  cases h1 : afind nx f
  · simp only [add_next_vertex, h1, find2]
    rw [afind_append_none h1]
    simp [afind]
  · rename_i inner
    cases h2 : afind inner t
    · simp only [add_next_vertex, h1, h2]
      rw [find2_of_outer_some t (afind_ainsert_self nx f (ainsert inner t t)),
        afind_ainsert_self]
      rfl
    · rename_i u
      simp only [add_next_vertex, h1, h2]
      rw [find2_of_outer_some t h1, h2]
      rfl

theorem update_next_vertex_some (g : GraphResult) (i j k : Vertex)
    (inner : List (Vertex × Vertex)) (v : Vertex)
    (hi : afind g.next i = some inner) (hk : afind inner k = some v) :
    g.update_next_vertex i j k =
      some { g with next := ainsert g.next i (ainsert inner j v) } := by
  simp only [GraphResult.update_next_vertex, hi, hk]

theorem update_next_vertex_inv {g : GraphResult} {i j k : Vertex} {g' : GraphResult}
    (h : g.update_next_vertex i j k = some g') :
    g'.adj_matrix = g.adj_matrix ∧ g'.best_rate = g.best_rate ∧
    ∃ inner v, afind g.next i = some inner ∧ afind inner k = some v ∧
      g'.next = ainsert g.next i (ainsert inner j v) := by
  cases h1 : afind g.next i
  · simp only [GraphResult.update_next_vertex, h1] at h
    exact Option.noConfusion h
  · rename_i inner
    cases h2 : afind inner k
    · simp only [GraphResult.update_next_vertex, h1, h2] at h
      exact Option.noConfusion h
    · rename_i v
      simp only [GraphResult.update_next_vertex, h1, h2, Option.some.injEq] at h
      subst h
      exact ⟨rfl, rfl, inner, v, rfl, h2, rfl⟩

/-! Generic fold lemmas. -/

theorem foldl_inv {α β : Type} (f : β → α → β) (P : β → Prop) :
    ∀ (l : List α) (b : β), P b → (∀ c a, a ∈ l → P c → P (f c a)) →
      P (l.foldl f b) := by
  intro l
  induction l with
  | nil => intro b hb _; simpa using hb
  | cons a rest ih =>
    intro b hb hf
    simp only [List.foldl_cons]
    exact ih (f b a) (hf b a (List.mem_cons_self _ _) hb)
      (fun c a' ha' => hf c a' (List.mem_cons_of_mem _ ha'))

theorem foldlM_inv_option {α β : Type} (f : β → α → Option β) (P : β → Prop) :
    ∀ (l : List α) (b : β), P b →
      (∀ c a, a ∈ l → P c → ∃ c', f c a = some c' ∧ P c') →
      ∃ b', l.foldlM f b = some b' ∧ P b' := by
  intro l
  induction l with
  | nil => intro b hb _; exact ⟨b, rfl, hb⟩
  | cons a rest ih =>
    intro b hb hf
    obtain ⟨b1, h1, hP1⟩ := hf b a (List.mem_cons_self _ _) hb
    obtain ⟨b2, h2, hP2⟩ :=
      ih b1 hP1 (fun c a' ha' => hf c a' (List.mem_cons_of_mem _ ha'))
    exact ⟨b2, by simp [List.foldlM_cons, h1, h2], hP2⟩

theorem foldlM_pres_option {α β : Type} (f : β → α → Option β) (P : β → Prop) :
    ∀ (l : List α) (b b' : β), P b →
      (∀ c a c', a ∈ l → P c → f c a = some c' → P c') →
      l.foldlM f b = some b' → P b' := by
  intro l
  induction l with
  | nil =>
    intro b b' hb _ h
    simp only [List.foldlM_nil] at h
    cases h; exact hb
  | cons a rest ih =>
    intro b b' hb hf h
    simp only [List.foldlM_cons] at h
    cases hfa : f b a
    · rw [hfa] at h; exact absurd h (by simp)
    · rename_i b1
      rw [hfa] at h
      simp at h
      exact ih b1 b' (hf b a b1 (List.mem_cons_self _ _) hb hfa)
        (fun c a' c' ha' => hf c a' c' (List.mem_cons_of_mem _ ha')) h

/-! Claim theorems. -/

/-- C10: vertex insertion is idempotent — on a duplicate-free vertex set,
inserting the same vertex twice equals inserting it once, inserting an
already-present vertex is a no-op, and after insertion the vertex occurs
exactly once. -/
theorem add_vertex_idempotent (g : Graph) (v : Vertex) (h : g.vertices.Nodup) :
    (g.add_vertex v).add_vertex v = g.add_vertex v ∧
    (v ∈ g.vertices → g.add_vertex v = g) ∧
    ((g.add_vertex v).vertices.count v = 1 ∧ (g.add_vertex v).vertices.Nodup) := by
  by_cases hv : v ∈ g.vertices
  · have h1 : g.add_vertex v = g := by simp [Graph.add_vertex, hv]
    refine ⟨by rw [h1, h1], fun _ => h1, ?_, ?_⟩
    · rw [h1]; exact List.count_eq_one_of_mem h hv
    · rw [h1]; exact h
  · have h1 : g.add_vertex v = ⟨v :: g.vertices⟩ := by simp [Graph.add_vertex, hv]
    have h2 : (⟨v :: g.vertices⟩ : Graph).add_vertex v = ⟨v :: g.vertices⟩ := by
      simp [Graph.add_vertex]
    refine ⟨by rw [h1, h2], fun hc => absurd hc hv, ?_, ?_⟩
    · rw [h1]
      simp [List.count_cons_self, List.count_eq_zero_of_not_mem hv]
    · rw [h1]
      exact List.nodup_cons.mpr ⟨hv, h⟩

/-- C10 witness at a concrete graph and vertex. -/
theorem add_vertex_idempotent_witness :
    ((⟨[w1A]⟩ : Graph).add_vertex w1B).add_vertex w1B = (⟨[w1A]⟩ : Graph).add_vertex w1B ∧
    (w1B ∈ ([w1A] : List Vertex) → (⟨[w1A]⟩ : Graph).add_vertex w1B = ⟨[w1A]⟩) ∧
    ((((⟨[w1A]⟩ : Graph).add_vertex w1B).vertices.count w1B = 1) ∧
      ((⟨[w1A]⟩ : Graph).add_vertex w1B).vertices.Nodup) :=
  add_vertex_idempotent ⟨[w1A]⟩ w1B (by decide)

/-- C5: last-write-wins — starting from a state with no edge `(f, t)`, after
the updates `(w1, t1)` then `(w2, t2)` the stored edge is `(w2, t2)` when
`t2 > t1` and stays `(w1, t1)` otherwise. -/
theorem add_edge_weight_last_write_wins (g : GraphResult) (f t : Vertex)
    (w1 : Rat) (t1 : Nat) (w2 : Rat) (t2 : Nat) (h : g.edgeLookup f t = none) :
    ((g.add_edge_weight f t w1 t1).add_edge_weight f t w2 t2).edgeLookup f t =
      some (if t2 > t1 then ⟨w2, t2⟩ else ⟨w1, t1⟩) := by
  unfold GraphResult.edgeLookup at h
  have step1 : (g.add_edge_weight f t w1 t1).edgeLookup f t = some ⟨w1, t1⟩ := by
    cases h1 : afind g.adj_matrix f
    · simp only [GraphResult.add_edge_weight, h1, GraphResult.edgeLookup, find2]
      rw [afind_append_none h1]
      simp [afind]
    · rename_i inner
      rw [find2_of_outer_some t h1] at h
      simp only [GraphResult.add_edge_weight, h1, h, GraphResult.edgeLookup]
      rw [find2_of_outer_some t (afind_ainsert_self _ _ _)]
      exact afind_ainsert_self _ _ _
  set g1 := g.add_edge_weight f t w1 t1 with hg1
  unfold GraphResult.edgeLookup at step1
  cases h2 : afind g1.adj_matrix f
  · rw [find2_of_outer_none t h2] at step1
    exact absurd step1 (by simp)
  · rename_i inner1
    rw [find2_of_outer_some t h2] at step1
    by_cases ht : t2 > t1
    · simp only [GraphResult.add_edge_weight, h2, step1, if_pos ht,
        GraphResult.edgeLookup]
      rw [find2_of_outer_some t (afind_ainsert_self _ _ _),
        afind_ainsert_self]
    · simp only [GraphResult.add_edge_weight, h2, step1, if_neg ht,
        GraphResult.edgeLookup]
      rw [find2_of_outer_some t h2, step1]

/-- C5 witness at a concrete state and two updates (the newer-timestamp case
and the stale case both evaluated). -/
theorem add_edge_weight_last_write_wins_witness :
    (GraphResult.new.edgeLookup w1A w1B = none ∧
      ((GraphResult.new.add_edge_weight w1A w1B 2 5).add_edge_weight
          w1A w1B 3 7).edgeLookup w1A w1B = some ⟨3, 7⟩) ∧
    ((GraphResult.new.add_edge_weight w1A w1B 2 5).add_edge_weight
        w1A w1B 3 5).edgeLookup w1A w1B = some ⟨2, 5⟩ := by
  refine ⟨⟨by decide, ?_⟩, ?_⟩
  · have := add_edge_weight_last_write_wins GraphResult.new w1A w1B 2 5 3 7
      (by decide)
    simpa using this
  · have := add_edge_weight_last_write_wins GraphResult.new w1A w1B 2 5 3 5
      (by decide)
    simpa using this

/-- Effect of one `orInsertEdge` on an arbitrary adjacency lookup: either the
lookup is unchanged, or the pair was absent and now holds weight 1 with
timestamp `now`. -/
theorem orInsertEdge_lookup (g : GraphResult) (a b : Vertex) (now : Nat)
    (x y : Vertex) :
    (orInsertEdge g a b now).edgeLookup x y = g.edgeLookup x y ∨
    (g.edgeLookup x y = none ∧
      (orInsertEdge g a b now).edgeLookup x y = some ⟨1, now⟩) := by
  cases h1 : afind g.adj_matrix a
  · left
    simp only [orInsertEdge, h1]
  · rename_i inner
    cases h2 : afind inner b
    · by_cases hx : x = a
      · subst hx
        by_cases hy : y = b
        · subst hy
          right
          constructor
          · unfold GraphResult.edgeLookup
            rw [find2_of_outer_some y h1]
            exact h2
          · simp only [orInsertEdge, h1, h2, GraphResult.edgeLookup]
            rw [find2_of_outer_some y (afind_ainsert_self _ _ _)]
            exact afind_ainsert_self _ _ _
        · left
          simp only [orInsertEdge, h1, h2, GraphResult.edgeLookup]
          rw [find2_of_outer_some y (afind_ainsert_self _ _ _),
            afind_ainsert_ne _ _ _ _ hy, find2_of_outer_some y h1]
      · left
        simp only [orInsertEdge, h1, h2, GraphResult.edgeLookup, find2]
        rw [afind_ainsert_ne _ _ _ _ hx]
    · rename_i e0
      left
      simp only [orInsertEdge, h1, h2]

/-- C6: the synthetic-link step never changes an existing adjacency entry;
any entry it creates carries weight 1 (timestamp `now`) and fills a
previously-absent pair.  In particular re-inserting a vertex leaves every
existing edge weight unchanged. -/
theorem synthetic_links_preserve_edges (g : GraphResult) (v : Vertex)
    (vs : List Vertex) (now : Nat) (x y : Vertex) :
    (g.add_edge_weight_for_currency v vs now).edgeLookup x y = g.edgeLookup x y ∨
    (g.edgeLookup x y = none ∧
      (g.add_edge_weight_for_currency v vs now).edgeLookup x y = some ⟨1, now⟩) := by
  unfold GraphResult.add_edge_weight_for_currency
  refine foldl_inv
    (fun acc u => if u = v then acc else orInsertEdge (orInsertEdge acc v u now) u v now)
    (fun c => c.edgeLookup x y = g.edgeLookup x y ∨
      (g.edgeLookup x y = none ∧ c.edgeLookup x y = some ⟨1, now⟩))
    (vs.filter (fun u => u.currency = v.currency)) g (Or.inl rfl) ?_
  intro c u _ hP
  dsimp only
  by_cases hu : u = v
  · rw [if_pos hu]; exact hP
  · rw [if_neg hu]
    have key : ∀ (c' : GraphResult) (a b : Vertex),
        (c'.edgeLookup x y = g.edgeLookup x y ∨
          (g.edgeLookup x y = none ∧ c'.edgeLookup x y = some ⟨1, now⟩)) →
        ((orInsertEdge c' a b now).edgeLookup x y = g.edgeLookup x y ∨
          (g.edgeLookup x y = none ∧
            (orInsertEdge c' a b now).edgeLookup x y = some ⟨1, now⟩)) := by
      intro c' a b hP'
      rcases orInsertEdge_lookup c' a b now x y with hstep | ⟨hnone, hnew⟩
      · rcases hP' with h | ⟨hg, hc⟩
        · left; rw [hstep, h]
        · right; exact ⟨hg, by rw [hstep]; exact hc⟩
      · rcases hP' with h | ⟨hg, hc⟩
        · right
          refine ⟨?_, hnew⟩
          rw [← h]; exact hnone
        · rw [hc] at hnone
          exact absurd hnone (by simp)
    exact key _ u v (key c v u hP)

/-- C7: a six-token quote line whose rate product is nonpositive or exceeds 1
is classified invalid, and processing it leaves the vertex set and the whole
graph state unchanged. -/
theorem invalid_ratio_rejected_no_mutation
    (pd : String → Option Nat) (pn : String → Option Rat)
    (t0 t1 t2 t3 t4 t5 : String) (dt : Nat) (f b : Rat)
    (now fuel : Nat) (st : Graph × GraphResult)
    (hd : pd t0 = some dt) (hf : pn t4 = some f) (hb : pn t5 = some b)
    (hbad : f * b ≤ 0 ∨ f * b > 1) :
    parse_input pd pn [t0, t1, t2, t3, t4, t5] =
      InputType.Invalid ("Resultant ratios is invalid") ∧
    processLine pd pn now fuel st [t0, t1, t2, t3, t4, t5] = some st := by
  have hp : parse_input pd pn [t0, t1, t2, t3, t4, t5] =
      InputType.Invalid ("Resultant ratios is invalid") := by
    simp [parse_input, NUM_TOKEN_PRICE_UPDATE, hd, hf, hb, hbad]
  refine ⟨hp, ?_⟩
  simp only [processLine, hp]

/-- C7 witness: a concrete six-token line with rate product 2 > 1 is rejected
and leaves a concrete state untouched. -/
theorem invalid_ratio_rejected_no_mutation_witness :
    parse_input (fun _ => some 7)
        (fun s => if s = "F" then some 2 else some 1)
        ["T", "E", "U", "J", "F", "B"] =
      InputType.Invalid ("Resultant ratios is invalid") ∧
    processLine (fun _ => some 7)
        (fun s => if s = "F" then some 2 else some 1)
        0 0 (⟨[]⟩, GraphResult.new) ["T", "E", "U", "J", "F", "B"] =
      some (⟨[]⟩, GraphResult.new) :=
  invalid_ratio_rejected_no_mutation _ _ _ _ _ _ _ _ 7 2 1 0 0
    (⟨[]⟩, GraphResult.new) rfl (by decide) (by decide) (by decide)

/-- C2: a query whose pair has no best-rate entry panics instead of
surfacing a defined "no rate known" result: on a graph where vertex (E, B)
has no outgoing edges, `get_best_rate` hits `unwrap()` on `None` (modelled
as `none`) and the whole request handler aborts. -/
theorem get_best_rate_panics_on_missing :
    (find_best_rates c1g c1vs).map (fun g => g.get_best_rate w1B w1A) =
      some none ∧
    handle_exchange_rate_request ⟨c1vs⟩ c1g ⟨"E", "B", "E", "A"⟩ 10 = none := by
  constructor
  · decide
  · decide


/-- C1 counterexample: on the concrete graph `c1g` (routes A→K1→B with
product 5 and A→K2→B with product 3, no direct A→B edge) the engine ends with
best_rate[A][B] = 3, while the algorithm the claim describes (comparing
`best_rate[i][j]` instead of the raw adjacency weight) ends with 5 — so the
compared `ij` is not the best-rate entry. -/
theorem relax_reads_adjacency_not_best_rate_cex :
    (find_best_rates c1g c1vs).map (fun g => g.bestRateLookup w1A w1B) =
      some (some 3) ∧
    (find_best_rates_spec c1g c1vs).map (fun g => g.bestRateLookup w1A w1B) =
      some (some 5) ∧
    (3 : Rat) ≠ 5 := by
  refine ⟨by decide, by decide, by decide⟩

/-- C1 amended: in each relaxation step all three compared values are raw
adjacency weights; when `adj(i,j) < adj(i,k) * adj(k,j)` (distinct triple)
the engine overwrites `best_rate[i][j]` with the product and redirects
`next[i][j]` to the value previously stored at `next[i][k]`, leaving the
adjacency matrix unchanged. -/
theorem relax_fire_sets_product_and_redirect (g : GraphResult)
    (i j k v : Vertex) (h1 : i ≠ j) (h2 : i ≠ k) (h3 : k ≠ j)
    (hfire : g.get_edge_weight i j <
      g.get_edge_weight i k * g.get_edge_weight k j)
    (hnext : g.nextLookup i k = some v) :
    ∃ g', relaxStep g i j k = some g' ∧
      g'.bestRateLookup i j =
        some (g.get_edge_weight i k * g.get_edge_weight k j) ∧
      g'.nextLookup i j = some v ∧
      g'.adj_matrix = g.adj_matrix := by
  unfold GraphResult.nextLookup at hnext
  cases hni : afind g.next i
  · rw [find2_of_outer_none k hni] at hnext
    exact absurd hnext (by simp)
  · rename_i inner
    rw [find2_of_outer_some k hni] at hnext
    have hstep : relaxStep g i j k =
        some { g with
               best_rate := add_best_rate g.best_rate i j
                 (g.get_edge_weight i k * g.get_edge_weight k j),
               next := ainsert g.next i (ainsert inner j v) } := by
      unfold relaxStep
      rw [if_pos ⟨h1, h2, h3⟩, if_pos hfire]
      exact update_next_vertex_some _ i j k inner v hni hnext
    refine ⟨_, hstep, ?_, ?_, rfl⟩
    · exact find2_add_best_rate_self _ _ _ _
    · unfold GraphResult.nextLookup
      rw [find2_of_outer_some j (afind_ainsert_self _ _ _)]
      exact afind_ainsert_self _ _ _

/-- C1 amended witness: the firing step evaluated on the initialized tables
of the concrete graph `c1g` at the triple (A, B, K1). -/
theorem relax_fire_sets_product_and_redirect_witness :
    ∃ g', relaxStep (initBestRates c1g) w1A w1B w1K1 = some g' ∧
      g'.bestRateLookup w1A w1B =
        some ((initBestRates c1g).get_edge_weight w1A w1K1 *
          (initBestRates c1g).get_edge_weight w1K1 w1B) ∧
      g'.nextLookup w1A w1B = some w1K1 ∧
      g'.adj_matrix = (initBestRates c1g).adj_matrix :=
  relax_fire_sets_product_and_redirect (initBestRates c1g) w1A w1B w1K1 w1K1
    (by decide) (by decide) (by decide) (by decide) (by decide)

/-- C3 counterexample: two states with identical adjacency matrices and
vertex sets — one fresh, one carrying the tables of an earlier query — are
recomputed to different next-hop tables, so the recompute is not stateless. -/
theorem recompute_depends_on_stale_next_cex :
    find_best_rates c3s1 c3vs = some c3s2 ∧
    c3s3.adj_matrix = c3fresh.adj_matrix ∧
    (find_best_rates c3s3 c3vs).map (fun g => g.nextLookup w3a w3b) =
      some (some w3c) ∧
    (find_best_rates c3fresh c3vs).map (fun g => g.nextLookup w3a w3b) =
      some (some w3b) ∧
    w3c ≠ w3b := by
  refine ⟨by decide, by decide, by decide, by decide, by decide⟩

/-- C4: on the concrete graph `c4g` with vertex order `c4vs` the recompute
reports best_rate[a][b] = 4, yet the reconstructed path a→x→k→b terminates at
b with adjacency-weight product 5 ≠ 4 — the path product does not match the
reported rate. -/
theorem best_rate_path_product_mismatch :
    find_best_rates c4g c4vs = some c4r ∧
    c4r.bestRateLookup w4a w4b = some 4 ∧
    c4r.best_rate_path w4a w4b 10 = some [w4a, w4x, w4k, w4b] ∧
    pathProduct c4r [w4a, w4x, w4k, w4b] = 5 ∧
    (4 : Rat) ≠ 5 := by
  refine ⟨by decide, by decide, by decide, by decide, by decide⟩


/-- Initialization never touches the adjacency matrix. -/
theorem init_adj (g : GraphResult) : (initBestRates g).adj_matrix = g.adj_matrix := by
  unfold initBestRates
  refine foldl_inv initOuterStep (fun c => c.adj_matrix = g.adj_matrix)
    g.adj_matrix g rfl ?_
  intro c p _ hc
  unfold initOuterStep
  refine foldl_inv (initInnerStep p.1) (fun c2 => c2.adj_matrix = g.adj_matrix)
    p.2 c hc ?_
  intro c2 q _ hc2
  simpa only [initInnerStep] using hc2

/-- The inner initialization fold over row `i` leaves best-rate lookups in
other rows unchanged. -/
theorem initInner_br_row_ne (i : Vertex) (qs : List (Vertex × EdgeWeight))
    (acc : GraphResult) (x y : Vertex) (hx : x ≠ i) :
    find2 (qs.foldl (initInnerStep i) acc).best_rate x y =
      find2 acc.best_rate x y := by
  refine foldl_inv (initInnerStep i)
    (fun c => find2 c.best_rate x y = find2 acc.best_rate x y) qs acc rfl ?_
  intro c q _ hc
  simp only [initInnerStep]
  rw [find2_add_best_rate_ne _ _ _ _ _ _ (fun hxy => hx hxy.1)]
  exact hc

/-- The inner initialization fold leaves `best_rate[i][j]` unchanged when no
processed edge targets `j`. -/
theorem initInner_br_keys_ne (i j : Vertex) (qs : List (Vertex × EdgeWeight))
    (acc : GraphResult) (hqs : ∀ q ∈ qs, q.1 ≠ j) :
    find2 (qs.foldl (initInnerStep i) acc).best_rate i j =
      find2 acc.best_rate i j := by
  refine foldl_inv (initInnerStep i)
    (fun c => find2 c.best_rate i j = find2 acc.best_rate i j) qs acc rfl ?_
  intro c q hq hc
  simp only [initInnerStep]
  rw [find2_add_best_rate_ne _ _ _ _ _ _ (fun hxy => hqs q hq hxy.2.symm)]
  exact hc

/-- The inner initialization fold writes `best_rate[i][j]` to the weight of
the (unique, by key-distinctness) edge `(j, e)` of the row. -/
theorem initInner_br_set (i j : Vertex) (e : EdgeWeight) :
    ∀ (qs : List (Vertex × EdgeWeight)) (acc : GraphResult),
      keysNodup qs → afind qs j = some e →
      find2 (qs.foldl (initInnerStep i) acc).best_rate i j = some e.weight := by
  intro qs
  induction qs with
  | nil => intro acc _ hj; simp [afind] at hj
  | cons q rest ih =>
    intro acc hnd hj
    obtain ⟨k0, e0⟩ := q
    have hndrest : keysNodup rest := by
      unfold keysNodup at hnd ⊢
      simp only [List.map_cons, List.nodup_cons] at hnd
      exact hnd.2
    by_cases hk : k0 = j
    · subst hk
      have he0 : e0 = e := by simpa [afind] using hj
      subst he0
      simp only [List.foldl_cons]
      have hrest : ∀ q ∈ rest, q.1 ≠ k0 := by
        intro q hq heq
        unfold keysNodup at hnd
        simp only [List.map_cons, List.nodup_cons] at hnd
        exact hnd.1 (heq ▸ List.mem_map_of_mem Prod.fst hq)
      rw [initInner_br_keys_ne i k0 rest _ hrest]
      simp only [initInnerStep]
      exact find2_add_best_rate_self _ _ _ _
    · have hj' : afind rest j = some e := by simpa [afind, hk] using hj
      simp only [List.foldl_cons]
      exact ih _ hndrest hj'

/-- The outer initialization fold leaves best-rate lookups of row `x`
unchanged when no processed row is keyed `x`. -/
theorem initOuter_br_keys_ne (x y : Vertex)
    (ps : List (Vertex × List (Vertex × EdgeWeight))) (acc : GraphResult)
    (hps : ∀ p ∈ ps, p.1 ≠ x) :
    find2 (ps.foldl initOuterStep acc).best_rate x y =
      find2 acc.best_rate x y := by
  refine foldl_inv initOuterStep
    (fun c => find2 c.best_rate x y = find2 acc.best_rate x y) ps acc rfl ?_
  intro c p hp hc
  unfold initOuterStep
  rw [initInner_br_row_ne p.1 p.2 c x y (Ne.symm (hps p hp))]
  exact hc

/-- Initialization over a well-formed adjacency list overwrites
`best_rate[i][j]` with the adjacency weight of the edge `(i, j)`. -/
theorem init_br_set :
    ∀ (ps : List (Vertex × List (Vertex × EdgeWeight))) (acc : GraphResult)
      (i j : Vertex) (inner : List (Vertex × EdgeWeight)) (e : EdgeWeight),
      keysNodup ps → (∀ p ∈ ps, keysNodup p.2) →
      afind ps i = some inner → afind inner j = some e →
      find2 (ps.foldl initOuterStep acc).best_rate i j = some e.weight := by
  intro ps
  induction ps with
  | nil => intro acc i j inner e _ _ hi _; simp [afind] at hi
  | cons p rest ih =>
    intro acc i j inner e hnd hinners hi hj
    obtain ⟨i0, qs⟩ := p
    have hndrest : keysNodup rest := by
      unfold keysNodup at hnd ⊢
      simp only [List.map_cons, List.nodup_cons] at hnd
      exact hnd.2
    by_cases hii : i0 = i
    · subst hii
      have hqs : qs = inner := by simpa [afind] using hi
      subst hqs
      simp only [List.foldl_cons]
      have hrest : ∀ p ∈ rest, p.1 ≠ i0 := by
        intro p hp heq
        unfold keysNodup at hnd
        simp only [List.map_cons, List.nodup_cons] at hnd
        exact hnd.1 (heq ▸ List.mem_map_of_mem Prod.fst hp)
      rw [initOuter_br_keys_ne i0 j rest _ hrest]
      exact initInner_br_set i0 j e qs acc
        (hinners _ (List.mem_cons_self _ _)) hj
    · have hi' : afind rest i = some inner := by simpa [afind, hii] using hi
      simp only [List.foldl_cons]
      exact ih _ i j inner e hndrest
        (fun p hp => hinners p (List.mem_cons_of_mem _ hp)) hi' hj

/-- The inner initialization fold preserves every existing next-hop value. -/
theorem initInner_next_pres (i : Vertex) (qs : List (Vertex × EdgeWeight))
    (acc : GraphResult) (x y v : Vertex) (h : find2 acc.next x y = some v) :
    find2 (qs.foldl (initInnerStep i) acc).next x y = some v := by
  refine foldl_inv (initInnerStep i) (fun c => find2 c.next x y = some v)
    qs acc h ?_
  intro c q _ hc
  simp only [initInnerStep]
  exact find2_add_next_pres _ _ _ _ _ _ hc

/-- The outer initialization fold preserves every existing next-hop value. -/
theorem initOuter_next_pres (ps : List (Vertex × List (Vertex × EdgeWeight)))
    (acc : GraphResult) (x y v : Vertex) (h : find2 acc.next x y = some v) :
    find2 (ps.foldl initOuterStep acc).next x y = some v := by
  refine foldl_inv initOuterStep (fun c => find2 c.next x y = some v)
    ps acc h ?_
  intro c p _ hc
  exact initInner_next_pres p.1 p.2 c x y v hc

/-- Initialization preserves every existing next-hop value (stale entries
survive the recompute's initialization). -/
theorem init_next_pres (g : GraphResult) (x y v : Vertex)
    (h : find2 g.next x y = some v) :
    find2 (initBestRates g).next x y = some v :=
  initOuter_next_pres g.adj_matrix g x y v h

/-- isSome-version of `initInner_next_pres`. -/
theorem initInner_next_isSome (i : Vertex) (qs : List (Vertex × EdgeWeight))
    (acc : GraphResult) (x y : Vertex) (h : (find2 acc.next x y).isSome) :
    (find2 (qs.foldl (initInnerStep i) acc).next x y).isSome := by
  obtain ⟨v, hv⟩ := Option.isSome_iff_exists.mp h
  rw [initInner_next_pres i qs acc x y v hv]
  rfl

/-- isSome-version of `initOuter_next_pres`. -/
theorem initOuter_next_isSome (ps : List (Vertex × List (Vertex × EdgeWeight)))
    (acc : GraphResult) (x y : Vertex) (h : (find2 acc.next x y).isSome) :
    (find2 (ps.foldl initOuterStep acc).next x y).isSome := by
  obtain ⟨v, hv⟩ := Option.isSome_iff_exists.mp h
  rw [initOuter_next_pres ps acc x y v hv]
  rfl

/-- After the inner initialization fold over row `i`, every edge of the row
has a next-hop entry. -/
theorem initInner_next_covers (i : Vertex) :
    ∀ (qs : List (Vertex × EdgeWeight)) (acc : GraphResult)
      (k0 : Vertex) (e0 : EdgeWeight), (k0, e0) ∈ qs →
      (find2 (qs.foldl (initInnerStep i) acc).next i k0).isSome := by
  intro qs
  induction qs with
  | nil => intro acc k0 e0 h; cases h
  | cons q rest ih =>
    intro acc k0 e0 h
    simp only [List.foldl_cons]
    rcases List.mem_cons.mp h with heq | hmem
    · rw [← heq]
      apply initInner_next_isSome
      simp only [initInnerStep]
      exact find2_add_next_self_isSome _ _ _
    · exact ih _ k0 e0 hmem

/-- After the outer initialization fold, every adjacency edge has a next-hop
entry. -/
theorem initOuter_next_covers :
    ∀ (ps : List (Vertex × List (Vertex × EdgeWeight))) (acc : GraphResult)
      (i0 k0 : Vertex) (qs : List (Vertex × EdgeWeight)) (e0 : EdgeWeight),
      (i0, qs) ∈ ps → (k0, e0) ∈ qs →
      (find2 (ps.foldl initOuterStep acc).next i0 k0).isSome := by
  intro ps
  induction ps with
  | nil => intro acc i0 k0 qs e0 h _; cases h
  | cons p rest ih =>
    intro acc i0 k0 qs e0 hp hq
    simp only [List.foldl_cons]
    rcases List.mem_cons.mp hp with heq | hmem
    · rw [← heq]
      apply initOuter_next_isSome
      exact initInner_next_covers i0 qs acc k0 e0 hq
    · exact ih _ i0 k0 qs e0 hmem hq

/-- After initialization, every pair present in the adjacency matrix has a
next-hop entry. -/
theorem init_next_covers (g : GraphResult) (x y : Vertex)
    (h : (find2 g.adj_matrix x y).isSome) :
    (find2 (initBestRates g).next x y).isSome := by
  cases hm : afind g.adj_matrix x
  · rw [find2_of_outer_none y hm] at h
    simp at h
  · rename_i qs
    rw [find2_of_outer_some y hm] at h
    cases he : afind qs y
    · rw [he] at h
      simp at h
    · rename_i e0
      exact initOuter_next_covers g.adj_matrix g x y qs e0
        (afind_mem hm) (afind_mem he)

/-- With an all-positive adjacency matrix, `get_edge_weight` is nonnegative. -/
theorem get_edge_weight_nonneg {g : GraphResult} (h : AllPos g.adj_matrix)
    (x y : Vertex) : 0 ≤ g.get_edge_weight x y := by
  cases hm : afind g.adj_matrix x
  · simp only [GraphResult.get_edge_weight, hm]
    exact le_refl 0
  · rename_i inner
    cases he : afind inner y
    · simp only [GraphResult.get_edge_weight, hm, he]
      exact le_refl 0
    · rename_i e
      simp only [GraphResult.get_edge_weight, hm, he]
      exact le_of_lt (h _ (afind_mem hm) _ (afind_mem he))

/-- A next-table update by `update_next_vertex` keeps every present entry
present. -/
theorem find2_ainsert_isSome_pres (nx : List (Vertex × List (Vertex × Vertex)))
    (i : Vertex) (inner : List (Vertex × Vertex)) (j v x y : Vertex)
    (hni : afind nx i = some inner) (h : (find2 nx x y).isSome) :
    (find2 (ainsert nx i (ainsert inner j v)) x y).isSome := by
  by_cases hx : x = i
  · subst hx
    rw [find2_of_outer_some y (afind_ainsert_self _ _ _)]
    rw [find2_of_outer_some y hni] at h
    by_cases hy : y = j
    · subst hy
      rw [afind_ainsert_self]
      rfl
    · rw [afind_ainsert_ne _ _ _ _ hy]
      exact h
  · have hout : afind (ainsert nx i (ainsert inner j v)) x = afind nx x :=
      afind_ainsert_ne _ _ _ _ hx
    unfold find2 at h ⊢
    rw [hout]
    exact h


/-- C3 amended: the recompute is not stateless.  Its initialization
overwrites `best_rate[i][j]` with the adjacency weight for every existing
edge, but an existing next entry — possibly stale from an earlier query — is
kept verbatim (`add_next_vertex` inserts only when absent), so the resulting
tables can depend on state left over from earlier queries. -/
theorem init_overwrites_best_rate_keeps_next (g : GraphResult) (i j : Vertex)
    (e : EdgeWeight) (v : Vertex) (hWF : WFadj g)
    (he : g.edgeLookup i j = some e) (hn : g.nextLookup i j = some v) :
    (initBestRates g).bestRateLookup i j = some e.weight ∧
    (initBestRates g).nextLookup i j = some v := by
  obtain ⟨hnd, hinners⟩ := hWF
  unfold GraphResult.edgeLookup at he
  constructor
  · cases hm : afind g.adj_matrix i
    · rw [find2_of_outer_none j hm] at he
      exact absurd he (by simp)
    · rename_i inner
      rw [find2_of_outer_some j hm] at he
      exact init_br_set g.adj_matrix g i j inner e hnd hinners hm he
  · exact init_next_pres g i j v hn

/-- C3 amended witness: the stale state `c3s3` (left by an earlier query,
then updated with edge a→b = 100) has its best-rate entry rewritten to 100 at
initialization while the stale next entry (E1, C) survives. -/
theorem init_overwrites_best_rate_keeps_next_witness :
    (initBestRates c3s3).bestRateLookup w3a w3b = some (100 : Rat) ∧
    (initBestRates c3s3).nextLookup w3a w3b = some w3c :=
  init_overwrites_best_rate_keeps_next c3s3 w3a w3b ⟨100, 2⟩ w3c
    (by decide) (by decide) (by decide)

/-- C8: after a recompute that returns, every pair with a direct adjacency
edge has a best-rate entry at least as large as the adjacency weight. -/
theorem best_rate_ge_adjacency (g : GraphResult) (vs : List Vertex)
    (i j : Vertex) (e : EdgeWeight) (g' : GraphResult) (hWF : WFadj g)
    (he : g.edgeLookup i j = some e) (hrun : find_best_rates g vs = some g') :
    ∃ v, g'.bestRateLookup i j = some v ∧ e.weight ≤ v := by
  unfold GraphResult.edgeLookup at he
  have hstep : ∀ (c : GraphResult) (i' j' k' : Vertex) (c' : GraphResult),
      (c.adj_matrix = g.adj_matrix ∧
        ∃ v, find2 c.best_rate i j = some v ∧ e.weight ≤ v) →
      relaxStep c i' j' k' = some c' →
      (c'.adj_matrix = g.adj_matrix ∧
        ∃ v, find2 c'.best_rate i j = some v ∧ e.weight ≤ v) := by
    intro c i' j' k' c' hc hsome
    obtain ⟨hadj, v, hv, hle⟩ := hc
    unfold relaxStep at hsome
    by_cases hd : i' ≠ j' ∧ i' ≠ k' ∧ k' ≠ j'
    · rw [if_pos hd] at hsome
      by_cases hf : c.get_edge_weight i' j' <
          c.get_edge_weight i' k' * c.get_edge_weight k' j'
      · rw [if_pos hf] at hsome
        obtain ⟨hadj', hbr', _, _, _, _, _⟩ := update_next_vertex_inv hsome
        refine ⟨by rw [hadj']; exact hadj, ?_⟩
        by_cases hij : i' = i ∧ j' = j
        · rcases hij with ⟨rfl, rfl⟩
          refine ⟨c.get_edge_weight i' k' * c.get_edge_weight k' j', ?_, ?_⟩
          · rw [hbr']
            exact find2_add_best_rate_self _ _ _ _
          · have hcij : c.get_edge_weight i' j' = e.weight := by
              apply get_edge_weight_of_some
              unfold GraphResult.edgeLookup
              rw [hadj]
              exact he
            rw [← hcij]
            exact le_of_lt hf
        · refine ⟨v, ?_, hle⟩
          rw [hbr']
          rw [find2_add_best_rate_ne _ _ _ _ _ _
            (fun hh => hij ⟨hh.1.symm, hh.2.symm⟩)]
          exact hv
      · rw [if_neg hf] at hsome
        simp only [Option.some.injEq] at hsome
        subst hsome
        exact ⟨hadj, v, hv, hle⟩
    · rw [if_neg hd] at hsome
      simp only [Option.some.injEq] at hsome
      subst hsome
      exact ⟨hadj, v, hv, hle⟩
  have hinit : (initBestRates g).adj_matrix = g.adj_matrix ∧
      ∃ v, find2 (initBestRates g).best_rate i j = some v ∧ e.weight ≤ v := by
    refine ⟨init_adj g, e.weight, ?_, le_refl _⟩
    obtain ⟨hnd, hinners⟩ := hWF
    cases hm : afind g.adj_matrix i
    · rw [find2_of_outer_none j hm] at he
      exact absurd he (by simp)
    · rename_i inner
      rw [find2_of_outer_some j hm] at he
      exact init_br_set g.adj_matrix g i j inner e hnd hinners hm he
  unfold find_best_rates relax at hrun
  have hfinal : g'.adj_matrix = g.adj_matrix ∧
      ∃ v, find2 g'.best_rate i j = some v ∧ e.weight ≤ v := by
    refine foldlM_pres_option _
      (fun c => c.adj_matrix = g.adj_matrix ∧
        ∃ v, find2 c.best_rate i j = some v ∧ e.weight ≤ v)
      vs (initBestRates g) g' hinit ?_ hrun
    intro c a c' _ hc hca
    refine foldlM_pres_option _
      (fun c2 => c2.adj_matrix = g.adj_matrix ∧
        ∃ v, find2 c2.best_rate i j = some v ∧ e.weight ≤ v)
      vs c c' hc ?_ hca
    intro c2 a2 c2' _ hc2 hca2
    refine foldlM_pres_option _
      (fun c3 => c3.adj_matrix = g.adj_matrix ∧
        ∃ v, find2 c3.best_rate i j = some v ∧ e.weight ≤ v)
      vs c2 c2' hc2 ?_ hca2
    intro c3 a3 c3' _ hc3 hca3
    exact hstep c3 a a2 a3 c3' hc3 hca3
  obtain ⟨_, v, hv, hle⟩ := hfinal
  exact ⟨v, hv, hle⟩

/-- C8 witness: on the concrete graph `c1g` with edge A→K1 of weight 5, the
recomputed best rate for (A, K1) is at least 5. -/
theorem best_rate_ge_adjacency_witness :
    ∃ v, ((find_best_rates c1g c1vs).getD GraphResult.new).bestRateLookup
        w1A w1K1 = some v ∧ (5 : Rat) ≤ v :=
  best_rate_ge_adjacency c1g c1vs w1A w1K1 ⟨5, 1⟩
    ((find_best_rates c1g c1vs).getD GraphResult.new)
    (by decide) (by decide) (by decide)

/-- C9: when every stored adjacency weight is strictly positive, the
recompute never panics — whenever the relaxation guard fires, the next table
already holds `next[i][k]`, so `update_next_vertex`'s unwraps succeed. -/
theorem find_best_rates_no_panic (g : GraphResult) (vs : List Vertex)
    (hpos : AllPos g.adj_matrix) : ∃ g', find_best_rates g vs = some g' := by
  have hinit : (initBestRates g).adj_matrix = g.adj_matrix ∧
      ∀ x y, (find2 g.adj_matrix x y).isSome →
        (find2 (initBestRates g).next x y).isSome :=
    ⟨init_adj g, fun x y h => init_next_covers g x y h⟩
  have hstep : ∀ (c : GraphResult) (i j k : Vertex),
      (c.adj_matrix = g.adj_matrix ∧
        ∀ x y, (find2 g.adj_matrix x y).isSome → (find2 c.next x y).isSome) →
      ∃ c', relaxStep c i j k = some c' ∧
        (c'.adj_matrix = g.adj_matrix ∧
          ∀ x y, (find2 g.adj_matrix x y).isSome →
            (find2 c'.next x y).isSome) := by
    intro c i j k hc
    obtain ⟨hadj, hcov⟩ := hc
    unfold relaxStep
    by_cases hd : i ≠ j ∧ i ≠ k ∧ k ≠ j
    · rw [if_pos hd]
      by_cases hf : c.get_edge_weight i j <
          c.get_edge_weight i k * c.get_edge_weight k j
      · rw [if_pos hf]
        have hpos' : AllPos c.adj_matrix := by rw [hadj]; exact hpos
        have hik : (find2 g.adj_matrix i k).isSome := by
          by_contra hno
          have hnone : c.edgeLookup i k = none := by
            unfold GraphResult.edgeLookup
            rw [hadj]
            exact Option.not_isSome_iff_eq_none.mp hno
          have h0 : c.get_edge_weight i k = 0 := get_edge_weight_of_none hnone
          rw [h0, zero_mul] at hf
          exact absurd hf (not_lt.mpr (get_edge_weight_nonneg hpos' i j))
        obtain ⟨v, hv⟩ := Option.isSome_iff_exists.mp (hcov i k hik)
        cases hni : afind c.next i
        · rw [find2_of_outer_none k hni] at hv
          exact absurd hv (by simp)
        · rename_i inner
          rw [find2_of_outer_some k hni] at hv
          refine ⟨_, update_next_vertex_some _ i j k inner v hni hv, hadj, ?_⟩
          intro x y hxy
          exact find2_ainsert_isSome_pres c.next i inner j v x y hni
            (hcov x y hxy)
      · rw [if_neg hf]
        exact ⟨c, rfl, hadj, hcov⟩
    · rw [if_neg hd]
      exact ⟨c, rfl, hadj, hcov⟩
  have main : ∃ g', (relax (initBestRates g) vs) = some g' ∧
      ((fun c => c.adj_matrix = g.adj_matrix ∧
        ∀ x y, (find2 g.adj_matrix x y).isSome →
          (find2 c.next x y).isSome) g') := by
    unfold relax
    refine foldlM_inv_option _
      (fun c => c.adj_matrix = g.adj_matrix ∧
        ∀ x y, (find2 g.adj_matrix x y).isSome → (find2 c.next x y).isSome)
      vs (initBestRates g) hinit ?_
    intro c a _ hc
    refine foldlM_inv_option _
      (fun c2 => c2.adj_matrix = g.adj_matrix ∧
        ∀ x y, (find2 g.adj_matrix x y).isSome → (find2 c2.next x y).isSome)
      vs c hc ?_
    intro c2 a2 _ hc2
    refine foldlM_inv_option _
      (fun c3 => c3.adj_matrix = g.adj_matrix ∧
        ∀ x y, (find2 g.adj_matrix x y).isSome → (find2 c3.next x y).isSome)
      vs c2 hc2 ?_
    intro c3 a3 _ hc3
    exact hstep c3 a a2 a3 hc3
  obtain ⟨g', hg', _⟩ := main
  exact ⟨g', hg'⟩

/-- C9 witness: the concrete graph `c1g`, whose weights are all positive,
recomputes without a panic. -/
theorem find_best_rates_no_panic_witness :
    ∃ g', find_best_rates c1g c1vs = some g' :=
  find_best_rates_no_panic c1g c1vs (by decide)

end TenX
